import Mathlib

/-!
Verification of the discrete-event simulation core and branching-ledger
structure of the blockchain visualizer.

The definitions below are shallow embeddings of the JavaScript source:
* the `EventQueue` drain loop (`source: EventQueue.dequeue`, `EventQueue.#sort`),
* the seeded per-context random generator (`source: nodeMethods.js random`, mulberry32),
* the `Block` / `BlockChain` ledger tree with `add`, `tidy` (rules 1-5 including
  the nested `combineBranches`), `trimBase`, `has`, `findAll`,
* the post-delivery trust-aggregation pass (`source: EventQueue.#handleBlockchainEvents`),
* the `PrebenCoin` trust pass (`source: updateBlockTrustLevels`).

JavaScript numbers are modelled as `ℚ` (all concrete inputs used below are dyadic
rationals on which IEEE double arithmetic is exact), 32-bit integer operations as
`Nat` arithmetic modulo `2 ^ 32`, and string block ids as `Nat`.
-/

/-- A queue event: the simulation orders events by `timestamp`; `eid` stands for the
identity of the event object (which function event or node-delivery event it is). -/
structure SimEvent where
  ts : ℚ
  eid : Nat
deriving DecidableEq

/-- Insertion into a timestamp-sorted list, modelling one step of
`this.#events.sort((a, b) => a.timestamp - b.timestamp)`. -/

def insertEvent (e : SimEvent) : List SimEvent → List SimEvent
  | [] => [e]
  | x :: xs => if e.ts ≤ x.ts then e :: x :: xs else x :: insertEvent e xs

/-- Sorting by ascending timestamp, modelling `EventQueue.#sort`. -/

def sortEvents : List SimEvent → List SimEvent
  | [] => []
  | x :: xs => insertEvent x (sortEvents xs)

/-- The `EventQueue.dequeue` drain loop: while events remain, sort by timestamp,
shift the earliest event, set the logical clock to its timestamp, dispatch it
(the dispatched handler may enqueue new events, given by `handler`), and loop.
`fuel` bounds the number of dispatched events; the second component is the
backlog remaining when fuel runs out (empty when the drain completed). -/

def dequeueLoop (handler : SimEvent → List SimEvent) : Nat → List SimEvent → List SimEvent × List SimEvent
  | 0, pending => ([], pending)
  | Nat.succ fuel, pending =>
    match sortEvents pending with
    | [] => ([], [])
    | h :: rest =>
      let r := dequeueLoop handler fuel (rest ++ handler h)
      (h :: r.1, r.2)

structure Block where
  id : Nat
  previousId : Option Nat
  trust : ℚ
deriving DecidableEq

/-- The recursive ledger tree (source: `BlockChain`): an ordered block list
(spine) plus branches attached at the end of the spine. -/

inductive BlockChain where
  | mk (blocks : List Block) (branches : List BlockChain)

def BlockChain.blocks : BlockChain → List Block
  | .mk bs _ => bs

def BlockChain.branches : BlockChain → List BlockChain
  | .mk _ brs => brs

/-- The `(content-id, previous-id)` pair; the source keys maps and sets by the
string `id + previousId`, which for the fixed-format color ids is injective in
this pair. -/

def keyOf (b : Block) : Nat × Option Nat := (b.id, b.previousId)

mutual

/-- All blocks in iterator order (source: `BlockChain[Symbol.iterator]`): the
spine first, then every branch recursively. -/
def allBlocks : BlockChain → List Block
  | .mk bs brs => bs ++ allBlocksList brs

/-- Blocks of a list of branches, in order. -/
def allBlocksList : List BlockChain → List Block
  | [] => []
  | br :: rest => allBlocks br ++ allBlocksList rest

end

/-- A query built from a block or identifier object, as `findAll` receives it
(source: `BlockChain.findAll`): a destructured field that is `undefined` falls
back to `null` and acts as a wildcard, so a base block (previousId `undefined`)
queries by id only. -/
def blockMatches (qid : Option Nat) (qprev : Option Nat) (b : Block) : Bool :=
  (match qid with
   | none => true
   | some i => b.id == i) &&
  (match qprev with
   | none => true
   | some p => b.previousId == some p)

/-- Source: `BlockChain.findAll` restricted to the matched blocks (entry
positions are recovered separately where needed). -/

def findAllBlocks (t : BlockChain) (qid qprev : Option Nat) : List Block :=
  (allBlocks t).filter (blockMatches qid qprev)

/-- Source: `BlockChain.has(block, amount)`: at least `amount` blocks match the
query derived from `block` (its previous-id acts as a wildcard when absent). -/

def hasAmount (t : BlockChain) (b : Block) (amount : Nat) : Bool :=
  amount ≤ (findAllBlocks t (some b.id) b.previousId).length

mutual

/-- Source: `BlockChain.getStarts`: the first spine block if the spine is
non-empty, otherwise the starts of all branches. -/
def getStarts : BlockChain → List Block
  | .mk (b :: _) _ => [b]
  | .mk [] brs => getStartsList brs

/-- Starts of a list of branches, in order. -/
def getStartsList : List BlockChain → List Block
  | [] => []
  | br :: rest => getStarts br ++ getStartsList rest

end

mutual

/-- Source: `BlockChain.getEnds`: with branches, the ends of every branch;
otherwise the last spine block (if any). -/
def getEnds : BlockChain → List Block
  | .mk bs [] => match bs.getLast? with
    | some b => [b]
    | none => []
  | .mk _ (br :: rest) => getEndsList (br :: rest)

/-- Ends of a list of branches, in order. -/
def getEndsList : List BlockChain → List Block
  | [] => []
  | br :: rest => getEnds br ++ getEndsList rest

end

/-- A block entry as produced by `BlockChain.entries`: the branch-index path of
the chain holding the block, the block's local index in that chain's spine, and
the block itself. -/
structure BlockEntry where
  path : List Nat
  idx : Nat
  block : Block
deriving DecidableEq

mutual

/-- Source: `BlockChain.entries`: spine blocks of this chain first (ascending
local index), then each branch's entries in branch order, with root-relative
paths. -/
def entriesFrom (pre : List Nat) : BlockChain → List BlockEntry
  | .mk bs brs =>
    (bs.enum.map fun p => ⟨pre, p.1, p.2⟩) ++ entriesFromList pre 0 brs

/-- Entries of a list of branches, in branch-index order. -/
def entriesFromList (pre : List Nat) (j : Nat) : List BlockChain → List BlockEntry
  | [] => []
  | br :: rest => entriesFrom (pre ++ [j]) br ++ entriesFromList pre (j + 1) rest

end

/-- Navigate to the sub-chain at a branch-index path. -/
def chainAt : BlockChain → List Nat → Option BlockChain
  | t, [] => some t
  | .mk _ brs, i :: p =>
    match brs.get? i with
    | none => none
    | some b => chainAt b p

/-- Replace the sub-chain at a branch-index path (models in-place mutation of a
nested branch object). -/

def updateAt : BlockChain → List Nat → (BlockChain → BlockChain) → BlockChain
  | t, [], f => f t
  | .mk bs brs, i :: p, f => .mk bs (brs.mapIdx fun j b => if j = i then updateAt b p f else b)

mutual

/-- Tidy rule 1 (source: tidy, "Remove chains that contain no blocks"): remove
the first branch (in `branchEntries` depth-first order, the root excluded) that
has no blocks and no branches. `none` means no such branch was found. -/
def removeNoBlockChains : BlockChain → Option BlockChain
  | .mk bs brs =>
    match removeNoBlockChainsList brs with
    | some brs' => some (.mk bs brs')
    | none => none

/-- Rule 1 over a branch list: each branch is checked itself first, then its
own sub-branches, then the next branch. -/
def removeNoBlockChainsList : List BlockChain → Option (List BlockChain)
  | [] => none
  | .mk [] [] :: rest => some rest
  | br :: rest =>
    match removeNoBlockChains br with
    | some br' => some (br' :: rest)
    | none =>
      match removeNoBlockChainsList rest with
      | some rest' => some (br :: rest')
      | none => none

end

mutual

/-- Tidy rule 2 (source: tidy, "Remove unneccessary branching points that only
branch out to one branch"): the first chain (the root included, in depth-first
order) with exactly one branch absorbs that branch's blocks and branches. -/
def streamlineBranches : BlockChain → Option BlockChain
  | .mk bs [br] => some (.mk (bs ++ br.blocks) br.branches)
  | .mk bs brs =>
    match streamlineBranchesList brs with
    | some brs' => some (.mk bs brs')
    | none => none

/-- Rule 2 over a branch list, in depth-first order. -/
def streamlineBranchesList : List BlockChain → Option (List BlockChain)
  | [] => none
  | br :: rest =>
    match streamlineBranches br with
    | some br' => some (br' :: rest)
    | none =>
      match streamlineBranchesList rest with
      | some rest' => some (br :: rest')
      | none => none

end

/-- The `(id, previousId)` keys already represented as successors at an entry's
position (source: tidy rule 3, the `currentBranches` set): for a spine-end
block, the starts of all attached branches; otherwise the next spine block. -/
def currentBranchKeys (t : BlockChain) (e : BlockEntry) : List (Nat × Option Nat) :=
  match chainAt t e.path with
  | none => []
  | some c =>
    if e.idx = c.blocks.length - 1 then
      (getStartsList c.branches).map keyOf
    else
      match c.blocks.get? (e.idx + 1) with
      | some nb => [keyOf nb]
      | none => []

/-- Apply one rule-3 graft (source: tidy, "add new branch"): build the new chain
from the candidate entry's chain suffix and attach it at the host entry, either
as an extra branch (host at spine end) or by splitting the host spine. -/

def addNewBranchAt (t : BlockChain) (e cand : BlockEntry) : BlockChain :=
  match chainAt t cand.path with
  | none => t
  | some pc =>
    let newChain : BlockChain := .mk (pc.blocks.drop cand.idx) pc.branches
    updateAt t e.path fun c =>
      if e.idx = c.blocks.length - 1 then
        .mk c.blocks (c.branches ++ [newChain])
      else
        .mk (c.blocks.take (e.idx + 1))
          [.mk (c.blocks.drop (e.idx + 1)) c.branches, newChain]

/-- Tidy rule 3 (source: tidy, "Connect blocks that point to each other, but
haven't been connected"): for the first entry (in `entries` order) having some
block whose previous-id equals the entry block's id and whose `(id, previousId)`
key is not yet represented as a successor there, graft that block's chain suffix
as a new branch. -/

def addNewBranch (t : BlockChain) : Option BlockChain :=
  let es := entriesFrom [] t
  es.findSome? fun e =>
    let curKeys := currentBranchKeys t e
    match (es.filter fun p => p.block.previousId == some e.block.id).find?
        (fun p => !(curKeys.contains (keyOf p.block))) with
    | some cand => some (addNewBranchAt t e cand)
    | none => none

mutual

/-- Source: `BlockChain.getStartBranches`, as branch-index paths: the chain
itself if its spine is non-empty, otherwise the start branches of its branches. -/
def getStartBranchPaths (pre : List Nat) : BlockChain → List (List Nat)
  | .mk (_ :: _) _ => [pre]
  | .mk [] brs => getStartBranchPathsList pre 0 brs

/-- Start-branch paths of a branch list, in branch-index order. -/
def getStartBranchPathsList (pre : List Nat) (j : Nat) : List BlockChain → List (List Nat)
  | [] => []
  | br :: rest =>
    getStartBranchPaths (pre ++ [j]) br ++ getStartBranchPathsList pre (j + 1) rest

end

/-- Length of the prefix of a branch's blocks each found at least twice in the
whole tree (source: tidy rule 4's `index` scan, which stops at the first block
not duplicated elsewhere). -/
def stripLen (t : BlockChain) : List Block → Nat
  | [] => 0
  | b :: rest => if hasAmount t b 2 then stripLen t rest + 1 else 0

/-- One start branch of tidy rule 4: if its first block has a previous-id,
strip the prefix of blocks that are each duplicated (multiplicity at least 2)
in the current tree. -/

def removeUnbasedStep (acc : BlockChain × Bool) (path : List Nat) : BlockChain × Bool :=
  match chainAt acc.1 path with
  | none => acc
  | some c =>
    match c.blocks with
    | [] => acc
    | b0 :: _ =>
      match b0.previousId with
      | none => acc
      | some _ =>
        if stripLen acc.1 c.blocks = 0 then acc
        else (updateAt acc.1 path
          (fun cc => .mk (cc.blocks.drop (stripLen acc.1 c.blocks)) cc.branches), true)

/-- Tidy rule 4 (source: tidy, "remove unbased branches"): when the root spine
is empty, process every start branch (paths computed up front) in order;
mutations from earlier start branches are visible to later checks, as in the
source. -/

def removeUnbasedBranches (t : BlockChain) : BlockChain × Bool :=
  match t with
  | .mk [] _ => (getStartBranchPaths [] t).foldl removeUnbasedStep (t, false)
  | _ => (t, false)

/-- Whether branches `i < j` fire the combine step (source: `combineBranches`):
both branch spines non-empty and their first blocks share an id (the source's
`blockIndex > 0` holds exactly then, because its scan compares every position of
one branch against the other branch's first block). -/

def fireable (bs : List BlockChain) (i j : Nat) : Bool :=
  decide (i < j) &&
    match bs[i]?, bs[j]? with
    | some bi, some bj =>
      match bi.blocks.head?, bj.blocks.head? with
      | some x, some y => x.id == y.id
      | _, _ => false
    | _, _ => false

/-- All index pairs `(i, j)` with `i < j < n` in the source's scan order. -/

def pairsInOrder (n : Nat) : List (Nat × Nat) :=
  (List.range n).flatMap fun i =>
    ((List.range n).filter fun j => decide (i < j)).map fun j => (i, j)

/-- The first branch pair the combine scan fires on. -/

def findFirePair (bs : List BlockChain) : Option (Nat × Nat) :=
  (pairsInOrder bs.length).find? fun p => fireable bs p.1 p.2

/-- Apply one combine fire (source: `combineBranches` body): due to the
`Array.shift` misuse and the positional `BlockChain` constructor call, both
branches are fully emptied and the pushed `newBranch` is an empty chain. -/

def applyFire (bs : List BlockChain) (i j : Nat) : List BlockChain :=
  ((bs.set i (.mk [] [])).set j (.mk [] [])) ++ [.mk [] []]

/-- Number of branches with a non-empty spine; the combine loop's measure. -/

def nonemptyCount (bs : List BlockChain) : Nat :=
  bs.countP fun c => !c.blocks.isEmpty

/-- The inner do-while of `combineBranches` (source label `combineBranchesLoop`),
with explicit fuel to keep the definition structurally recursive: repeatedly
fire on the first eligible branch pair until none fires; the boolean reports
whether any fire happened. `combineBranchesLoopGo_exact` shows the fuel used by
`combineBranchesLoop` below never runs out, so the zero-fuel arm is dead code. -/
def combineBranchesLoopGo : Nat → List BlockChain → List BlockChain × Bool
  | 0, bs => (bs, false)
  | Nat.succ f, bs =>
    match findFirePair bs with
    | none => (bs, false)
    | some (i, j) => ((combineBranchesLoopGo f (applyFire bs i j)).1, true)

/-- The combine fire loop: every fire empties two branches with non-empty
spines, so `nonemptyCount bs + 1` iterations always reach the fixed point. -/

def combineBranchesLoop (bs : List BlockChain) : List BlockChain × Bool :=
  combineBranchesLoopGo (nonemptyCount bs + 1) bs

mutual

/-- Depth of the ledger tree; bounds the recursion depth of `combineBranches`. -/
def chainDepth : BlockChain → Nat
  | .mk _ brs => chainDepthList brs + 1

/-- Maximum depth over a branch list. -/
def chainDepthList : List BlockChain → Nat
  | [] => 0
  | br :: rest => max (chainDepth br) (chainDepthList rest)

end

/-- Tidy rule 5 (source: `combineBranches`), fuel-indexed: run the fire loop on
this chain's branches, then recurse into every resulting branch. The fuel only
needs to cover the tree depth (`combineBranchesGo_exact`), because the loop
leaves each branch either untouched or empty. -/
def combineBranchesGo : Nat → BlockChain → BlockChain × Bool
  | 0, t => (t, false)
  | Nat.succ f, .mk bs brs =>
    let r := combineBranchesLoop brs
    let sub := r.1.map (combineBranchesGo f)
    (.mk bs (sub.map Prod.fst), r.2 || sub.any fun p => p.2)

/-- Source: `combineBranches`, at its exact fixed-point semantics. -/

def combineBranches (t : BlockChain) : BlockChain × Bool :=
  combineBranchesGo (chainDepth t) t

def applyRule (r : BlockChain → Option BlockChain) (t : BlockChain) : BlockChain × Bool :=
  match r t with
  | some t' => (t', true)
  | none => (t, false)

/-- One pass of the `tidy` do-while body: the five rule blocks run sequentially
on the successively updated tree (a fired rule breaks out of its own scan only);
the effect flag records whether any rule fired. -/

def tidyStep (t : BlockChain) : BlockChain × Bool :=
  let r1 := applyRule removeNoBlockChains t
  let r2 := applyRule streamlineBranches r1.1
  let r3 := applyRule addNewBranch r2.1
  let r4 := removeUnbasedBranches r3.1
  let r5 := combineBranches r4.1
  (r5.1, r1.2 || (r2.2 || (r3.2 || (r4.2 || r5.2))))

/-- The `tidy` fixed-point loop with its rerun budget: the source increments
`reruns` at the top of each iteration and throws once `reruns > 200`, so exactly
200 passes may run; remaining fuel 0 models the thrown error. -/

def tidyGo : Nat → BlockChain → Except String BlockChain
  | 0, _ => .error "Infinite loop detected when tidying a blockchain"
  | Nat.succ fuel, t =>
    let r := tidyStep t
    if r.2 then tidyGo fuel r.1 else .ok r.1

/-- Source: `BlockChain.tidy`. -/

def tidy (t : BlockChain) : Except String BlockChain := tidyGo 200 t

/-- Source: `BlockChain.add`: wrap the current blocks and branches into one base
branch, put the new block alone into a second base branch, and let `tidy` put
the block in the correct position. -/

def addBlock (t : BlockChain) (b : Block) : Except String BlockChain :=
  tidy (.mk [] [.mk t.blocks t.branches, .mk [b] []])

/-- Removal of matched blocks from one spine with the source's live-iterator
semantics: `trimBase` splices inside a `for..of` over `entries()`, so the
element immediately following a removed block is skipped (kept unexamined). -/

def removeMatchedIter (qid qprev : Option Nat) : List Block → List Block
  | [] => []
  | x :: xs =>
    if blockMatches qid qprev x then
      match xs with
      | [] => []
      | y :: ys => y :: removeMatchedIter qid qprev ys
    else x :: removeMatchedIter qid qprev xs

mutual

/-- Apply the iterator-removal of one queried block to every chain in the tree
(source: the first loop of `BlockChain.trimBase`). -/
def removeBlockOccurrences (qid qprev : Option Nat) : BlockChain → BlockChain
  | .mk bs brs => .mk (removeMatchedIter qid qprev bs) (removeBlockOccurrencesList qid qprev brs)

/-- Iterator-removal over a branch list. -/
def removeBlockOccurrencesList (qid qprev : Option Nat) : List BlockChain → List BlockChain
  | [] => []
  | br :: rest =>
    removeBlockOccurrences qid qprev br :: removeBlockOccurrencesList qid qprev rest

end

mutual

/-- Set every matched block as base (source: the second loop of
`BlockChain.trimBase`, calling `setAsBase` which clears `previousId`). -/
def setMatchedAsBase (qid qprev : Option Nat) : BlockChain → BlockChain
  | .mk bs brs =>
    .mk (bs.map fun b => if blockMatches qid qprev b then
          { b with previousId := none } else b)
      (setMatchedAsBaseList qid qprev brs)

/-- `setAsBase` pass over a branch list. -/
def setMatchedAsBaseList (qid qprev : Option Nat) : List BlockChain → List BlockChain
  | [] => []
  | br :: rest => setMatchedAsBase qid qprev br :: setMatchedAsBaseList qid qprev rest

end

/-- Source: `BlockChain.trimBase(blocks)`: remove every occurrence of all but
the last given block, set every occurrence of the last given block as the new
base, then `tidy`. The caller always passes a non-empty list; on `[]` the source
would throw a TypeError, modelled as an error. -/
def trimBase (t : BlockChain) (blocks : List Block) : Except String BlockChain :=
  let t1 := blocks.dropLast.foldl
    (fun acc b => removeBlockOccurrences (some b.id) b.previousId acc) t
  match blocks.getLast? with
  | none => .error "TypeError"
  | some lastB => tidy (setMatchedAsBase (some lastB.id) lastB.previousId t1)

/-- The distinct `(content-id, previous-id)` pairs present in a tree. -/

def distinctKeys (t : BlockChain) : List (Nat × Option Nat) :=
  ((allBlocks t).map keyOf).dedup

/-- C2. Counter-evidence for "canonicalization never decreases the count of
distinct (content-id, previous-id) occurrences": on a tree with two sibling
branches each holding the same base block, `tidy` returns the empty tree —
`combineBranches` misuses `Array.shift` and the `BlockChain` constructor, so the
"deduplication" deletes both branches' contents outright. The distinct-pair
count drops from 1 to 0, contradicting the documented intent ("find identical
branches ... and deduplicate them") and the spec's no-silent-loss property. -/

def mulberryNext (s : Nat) : Nat := (s + 1831565813) % 4294967296

/-- `Math.imul`: 32-bit integer multiplication (same bit pattern as the unsigned
product modulo `2 ^ 32`). -/

def imul32 (a b : Nat) : Nat := (a * b) % 4294967296

/-- The mulberry32 mixing of the updated seed (source: `random`):
`t = Math.imul(s ^ s >>> 15, 1 | s); t = t + Math.imul(t ^ t >>> 7, 61 | t) ^ t;
(t ^ t >>> 14) >>> 0` — in JavaScript `^` binds lower than `+`, and every
bitwise operator reduces its operands to 32 bits. -/

def mulberryMix (s : Nat) : Nat :=
  let t1 := imul32 (Nat.xor s (s >>> 15)) (Nat.lor 1 s)
  let t2 := Nat.xor ((t1 + imul32 (Nat.xor t1 (t1 >>> 7)) (Nat.lor 61 t1)) % 4294967296) t1
  Nat.xor t2 (t2 >>> 14)

/-- The value returned by `random`: `max * (mixed / 2 ** 32)`. -/

def randomValue (maxV : ℚ) (s : Nat) : ℚ :=
  maxV * ((mulberryMix s : ℚ) / 4294967296)

/-- Source: `random(context, max)`: look up (or initialise to the global seed)
the per-context seed, advance it, store it back, and return the scaled mixed
value. The seeds object is modelled as a total map initialised to the seed,
which matches `s[c] ??= globalThis.settings.seed`. -/

def randomCall (seedsMap : String → Nat) (context : String) (maxV : ℚ) :
    ℚ × (String → Nat) :=
  let s1 := mulberryNext (seedsMap context)
  (randomValue maxV s1, fun c => if c = context then s1 else seedsMap c)

/-- Run a sequence of `random(context, max)` calls, returning each call's
context with its value. -/

def runRandom (seedsMap : String → Nat) : List (String × ℚ) → List (String × ℚ)
  | [] => []
  | (c, m) :: rest =>
    let r := randomCall seedsMap c m
    (c, r.1) :: runRandom r.2 rest

/-- The pure per-context stream: the k-th call in one context sees the k-th
iterate of `mulberryNext` from that context's seed, whatever happens elsewhere. -/

def playContext (s : Nat) : List (String × ℚ) → List (String × ℚ)
  | [] => []
  | (c, m) :: rest => (c, randomValue m (mulberryNext s)) :: playContext (mulberryNext s) rest

mutual

/-- Source: `updateBlockTrustLevels` first loop: `for(const block of blockchain)
block.trust = 0`. -/
def resetTrusts : BlockChain → BlockChain
  | .mk bs brs => .mk (bs.map fun b => { b with trust := 0 }) (resetTrustsList brs)

/-- Trust reset over a branch list. -/
def resetTrustsList : List BlockChain → List BlockChain
  | [] => []
  | br :: rest => resetTrusts br :: resetTrustsList rest

end

/-- Overwrite the block at one spine position with the max of its current trust
and `v` (source: `chain.blocks[localIndex].trust = Math.max(block.trust, trust)`). -/
def bumpTrustList (idx : Nat) (v : ℚ) : List Block → List Block
  | [] => []
  | b :: rest =>
    match idx with
    | 0 => { b with trust := max b.trust v } :: rest
    | Nat.succ i => b :: bumpTrustList i v rest

/-- The write of one `setRecursiveBlockTrust` loop iteration, at a tree position. -/

def setTrustAt (t : BlockChain) (path : List Nat) (idx : Nat) (v : ℚ) : BlockChain :=
  updateAt t path fun c => .mk (bumpTrustList idx v c.blocks) c.branches

/-- Source: `setRecursiveBlockTrust(baseChain, blockId, trust)`: return if the
id is `undefined`; otherwise raise the propagated trust by 0.1 (saturating at
1), and for every block with that id (`findAll({id})` matches by id only) write
the max of its current trust and the propagated value, then recurse on that
block's previous-id. The recursion follows previous-id links, so fuel beyond
the block count never runs out on the acyclic chains the simulation builds. -/

def setRecursiveBlockTrust : Nat → BlockChain → Option Nat → ℚ → BlockChain
  | 0, t, _, _ => t
  | _, t, none, _ => t
  | Nat.succ f, t, some bid, trustV =>
    let v := min 1 (trustV + 1 / 10)
    ((entriesFrom [] t).filter fun e => e.block.id == bid).foldl
      (fun acc e =>
        setRecursiveBlockTrust f (setTrustAt acc e.path e.idx v) e.block.previousId v)
      t

/-- Source: `updateBlockTrustLevels(nodeData)`: reset every trust to 0, then for
each chain end, propagate trust backwards starting from the end's previous-id. -/

def updateBlockTrustLevels (fuel : Nat) (t : BlockChain) : BlockChain :=
  let t0 := resetTrusts t
  (getEnds t0).foldl (fun acc e => setRecursiveBlockTrust fuel acc e.previousId 0) t0

/-- The trust values of all blocks, in iterator order. -/
def trustsOf (t : BlockChain) : List ℚ := (allBlocks t).map Block.trust

/-- Source: `average(...numbers)` in utilities.js. -/
def average (l : List ℚ) : ℚ := l.sum / l.length

/-- One map insertion of the federated trust map (source:
`if(!globalChainTrust.has(id)) set(id, {block, trusts: []}); get(id).trusts.push(trust)`);
JS `Map` keeps insertion order, modelled by an association list. -/

def addTrustEntry (m : List ((Nat × Option Nat) × List ℚ)) (b : Block) :
    List ((Nat × Option Nat) × List ℚ) :=
  if m.any fun e => e.1 == keyOf b then
    m.map fun e => if e.1 == keyOf b then (e.1, e.2 ++ [b.trust]) else e
  else m ++ [(keyOf b, [b.trust])]

/-- The federated trust map over every block of every node, in node order then
iterator order (source: the first loop of `#handleBlockchainEvents`). -/

def collectTrustMap (nodes : List BlockChain) : List ((Nat × Option Nat) × List ℚ) :=
  (nodes.flatMap allBlocks).foldl addTrustEntry []

/-- The federated ledger: every block of every node added (via `add`, hence
`tidy`) into one fresh chain (source: `globalChain.add(block)` in the same loop). -/

def buildFederated (nodes : List BlockChain) : Except String BlockChain :=
  (nodes.flatMap allBlocks).foldlM (fun acc b => addBlock acc b) (BlockChain.mk [] [])

mutual

/-- Write a trust value into every block matching a query (source: the loop
`for({chain, localIndex} of globalChain.findAll(block)) chain.blocks[localIndex].trust = trust`;
a base block's absent previous-id queries by id only). -/
def writeTrust (qid qprev : Option Nat) (v : ℚ) : BlockChain → BlockChain
  | .mk bs brs =>
    .mk (bs.map fun b => if blockMatches qid qprev b then { b with trust := v } else b)
      (writeTrustList qid qprev v brs)

/-- Trust write over a branch list. -/
def writeTrustList (qid qprev : Option Nat) (v : ℚ) : List BlockChain → List BlockChain
  | [] => []
  | br :: rest => writeTrust qid qprev v br :: writeTrustList qid qprev v rest

end

/-- The average write loop of `#handleBlockchainEvents`: for each map entry (in
insertion order) write the average of its trusts into every matching occurrence
of the federated ledger. -/
def writeAverages (m : List ((Nat × Option Nat) × List ℚ)) (t : BlockChain) : BlockChain :=
  m.foldl (fun acc e => writeTrust (some e.1.1) e.1.2 (average e.2) acc) t

/-- The number of leading federated spine blocks with trust exactly 1 (source:
`while(globalChain.blocks[trustedIndex]?.trust === 1) trustedIndex++`). -/

def countTrustedPre : List Block → Nat
  | [] => 0
  | b :: rest => if b.trust == 1 then countTrustedPre rest + 1 else 0

/-- Source: `EventQueue.#handleBlockchainEvents`, restricted to its
ledger-state effects: build the federated trust map and federated chain,
write averaged trusts into the federated chain, and when the federated spine
has a fully-trusted prefix, `trimBase` the prefix plus one block on every
node's ledger. Returns the federated chain and the (possibly trimmed) node
ledgers; UI drawing is omitted. -/

def handleBlockchainEvents (nodes : List BlockChain) :
    Except String (BlockChain × List BlockChain) :=
  match buildFederated nodes with
  | .error e => .error e
  | .ok g0 =>
    let g1 := writeAverages (collectTrustMap nodes) g0
    let k := countTrustedPre g1.blocks
    if k = 0 then .ok (g1, nodes)
    else
      match nodes.mapM (fun n => trimBase n (g1.blocks.take (k + 1))) with
      | .error e => .error e
      | .ok nodes2 => .ok (g1, nodes2)

/-- The per-block effect of the average write loop: fold the map's writes over
one block (the loop writes only trust, so its action on the tree is pointwise). -/
def applyWrites (m : List ((Nat × Option Nat) × List ℚ)) (b : Block) : Block :=
  m.foldl
    (fun bb e => if blockMatches (some e.1.1) e.1.2 bb then { bb with trust := average e.2 }
      else bb) b

theorem length_insertEvent (e : SimEvent) (l : List SimEvent) :
    (insertEvent e l).length = l.length + 1 := by
  induction l with
  | nil => rfl
  | cons x xs ih =>
    simp only [insertEvent]
    split <;> simp [ih]

theorem length_sortEvents (l : List SimEvent) : (sortEvents l).length = l.length := by
  induction l with
  | nil => rfl
  | cons x xs ih => simp [sortEvents, length_insertEvent, ih]

theorem mem_insertEvent {x e : SimEvent} {l : List SimEvent} :
    x ∈ insertEvent e l ↔ x = e ∨ x ∈ l := by
  induction l with
  | nil => simp [insertEvent]
  | cons y ys ih =>
    simp only [insertEvent]
    split
    · simp [or_comm, or_left_comm]
    · simp [ih, or_left_comm]

theorem mem_sortEvents {x : SimEvent} {l : List SimEvent} :
    x ∈ sortEvents l ↔ x ∈ l := by
  induction l with
  | nil => simp [sortEvents]
  | cons y ys ih => simp [sortEvents, mem_insertEvent, ih]

theorem sortEvents_eq_nil {l : List SimEvent} (h : sortEvents l = []) : l = [] := by
  have := length_sortEvents l
  rw [h] at this
  exact List.length_eq_zero.mp this.symm

theorem sorted_insertEvent (e : SimEvent) (l : List SimEvent)
    (hl : List.Sorted (fun p q => p.ts ≤ q.ts) l) :
    List.Sorted (fun p q => p.ts ≤ q.ts) (insertEvent e l) := by
  induction l with
  | nil => simp [insertEvent]
  | cons x xs ih =>
    simp only [insertEvent]
    rw [List.sorted_cons] at hl
    split
    next hle =>
      rw [List.sorted_cons]
      refine ⟨?_, List.sorted_cons.mpr hl⟩
      intro b hb
      rcases List.mem_cons.mp hb with rfl | hb2
      · exact hle
      · exact le_trans hle (hl.1 b hb2)
    next hgt =>
      rw [List.sorted_cons]
      refine ⟨?_, ih hl.2⟩
      intro b hb
      rcases mem_insertEvent.mp hb with rfl | hb2
      · exact le_of_lt (lt_of_not_le hgt)
      · exact hl.1 b hb2

theorem sorted_sortEvents (l : List SimEvent) :
    List.Sorted (fun p q => p.ts ≤ q.ts) (sortEvents l) := by
  induction l with
  | nil => simp [sortEvents]
  | cons x xs ih => exact sorted_insertEvent x (sortEvents xs) ih

/-- The head of the sorted queue has a minimal timestamp among all pending events. -/

theorem sortEvents_head_min {l : List SimEvent} {h : SimEvent} {rest : List SimEvent}
    (hs : sortEvents l = h :: rest) : ∀ e ∈ l, h.ts ≤ e.ts := by
  intro e he
  have hsort := sorted_sortEvents l
  rw [hs, List.sorted_cons] at hsort
  have : e ∈ sortEvents l := mem_sortEvents.mpr he
  rw [hs] at this
  rcases List.mem_cons.mp this with rfl | h2
  · exact le_refl _
  · exact hsort.1 e h2

/-- Every event pending when the loop starts is dispatched, provided the drain
completes (no backlog remains). -/

theorem dequeueLoop_complete_mem (handler : SimEvent → List SimEvent) :
    ∀ (fuel : Nat) (pending : List SimEvent) (e : SimEvent),
      e ∈ pending → (dequeueLoop handler fuel pending).2 = [] →
      e ∈ (dequeueLoop handler fuel pending).1 := by
  intro fuel
  induction fuel with
  | zero =>
    intro pending e he hrem
    simp only [dequeueLoop] at hrem
    subst hrem
    simp at he
  | succ f ih =>
    intro pending e he hrem
    simp only [dequeueLoop] at hrem ⊢
    cases hs : sortEvents pending with
    | nil =>
      have := sortEvents_eq_nil hs
      subst this
      simp at he
    | cons h rest =>
      rw [hs] at hrem
      simp only at hrem ⊢
      by_cases heq : e = h
      · subst heq; exact List.mem_cons_self _ _
      · have : e ∈ sortEvents pending := mem_sortEvents.mpr he
        rw [hs] at this
        have herest : e ∈ rest := by
          rcases List.mem_cons.mp this with h1 | h1
          · exact absurd h1 heq
          · exact h1
        exact List.mem_cons_of_mem _
          (ih (rest ++ handler h) e (List.mem_append_left _ herest) hrem)

/-- C1. For two events enqueued on the EventQueue with timestamps t1 < t2 (both
pending before either is dispatched), the t1 event is dispatched strictly before
the t2 event, regardless of enqueue order; and draining events enqueued with
timestamps [50, 10, 30] dispatches them in the order [10, 30, 50]. -/

theorem eventQueue_dispatch_order :
    (∀ (handler : SimEvent → List SimEvent) (fuel : Nat) (pending : List SimEvent)
       (e1 e2 : SimEvent),
       e1 ∈ pending → e2 ∈ pending → e1.ts < e2.ts →
       (dequeueLoop handler fuel pending).2 = [] →
       ∃ i j, i < j ∧ (dequeueLoop handler fuel pending).1.get? i = some e1 ∧
         (dequeueLoop handler fuel pending).1.get? j = some e2) ∧
    dequeueLoop (fun _ => []) 3 [⟨50, 0⟩, ⟨10, 1⟩, ⟨30, 2⟩] =
      ([⟨10, 1⟩, ⟨30, 2⟩, ⟨50, 0⟩], []) := by
  constructor
  · intro handler fuel
    induction fuel with
    | zero =>
      intro pending e1 e2 he1 he2 hlt hrem
      simp only [dequeueLoop] at hrem
      subst hrem
      simp at he1
    | succ f ih =>
      intro pending e1 e2 he1 he2 hlt hrem
      simp only [dequeueLoop] at hrem ⊢
      cases hs : sortEvents pending with
      | nil =>
        have := sortEvents_eq_nil hs
        subst this
        simp at he1
      | cons h rest =>
        rw [hs] at hrem
        simp only at hrem ⊢
        by_cases h1 : h = e1
        · subst h1
          have hne : e2 ≠ h := by
            intro hcon
            subst hcon
            exact absurd hlt (lt_irrefl _)
          have he2s : e2 ∈ sortEvents pending := mem_sortEvents.mpr he2
          rw [hs] at he2s
          have he2rest : e2 ∈ rest := by
            rcases List.mem_cons.mp he2s with hcon | hok
            · exact absurd hcon hne
            · exact hok
          have he2out : e2 ∈ (dequeueLoop handler f (rest ++ handler h)).1 :=
            dequeueLoop_complete_mem handler f _ e2 (List.mem_append_left _ he2rest) hrem
          rcases List.mem_iff_get?.mp he2out with ⟨j, hj⟩
          exact ⟨0, j + 1, Nat.succ_pos _, rfl, by simpa using hj⟩
        · have h2 : h ≠ e2 := by
            intro hcon
            subst hcon
            have := sortEvents_head_min hs e1 he1
            exact absurd hlt (not_lt.mpr this)
          have he1s : e1 ∈ sortEvents pending := mem_sortEvents.mpr he1
          have he2s : e2 ∈ sortEvents pending := mem_sortEvents.mpr he2
          rw [hs] at he1s he2s
          have he1rest : e1 ∈ rest := by
            rcases List.mem_cons.mp he1s with hcon | hok
            · exact absurd hcon.symm h1
            · exact hok
          have he2rest : e2 ∈ rest := by
            rcases List.mem_cons.mp he2s with hcon | hok
            · exact absurd hcon.symm h2
            · exact hok
          rcases ih (rest ++ handler h) e1 e2 (List.mem_append_left _ he1rest)
            (List.mem_append_left _ he2rest) hlt hrem with ⟨i, j, hij, hi, hj⟩
          exact ⟨i + 1, j + 1, Nat.succ_lt_succ hij, by simpa using hi, by simpa using hj⟩
  · decide

/-- Witness for C1: the scenario queue [50, 10, 30] has its timestamp-10 event
dispatched strictly before its timestamp-50 event. -/

theorem eventQueue_dispatch_order_witness :
    ∃ i j, i < j ∧
      (dequeueLoop (fun _ => []) 3 [⟨50, 0⟩, ⟨10, 1⟩, ⟨30, 2⟩]).1.get? i =
        some (⟨10, 1⟩ : SimEvent) ∧
      (dequeueLoop (fun _ => []) 3 [⟨50, 0⟩, ⟨10, 1⟩, ⟨30, 2⟩]).1.get? j =
        some (⟨50, 0⟩ : SimEvent) :=
  eventQueue_dispatch_order.1 (fun _ => []) 3 _ ⟨10, 1⟩ ⟨50, 0⟩
    (by decide) (by decide) (by norm_num) (by decide)

/-- Events in `pending` all have timestamps at least `c`, so every dispatched
event also has timestamp at least `c` (the handler only adds later events). -/

theorem dequeueLoop_lower_bound (handler : SimEvent → List SimEvent)
    (hh : ∀ e e', e' ∈ handler e → e.ts ≤ e'.ts) :
    ∀ (fuel : Nat) (pending : List SimEvent) (c : ℚ),
      (∀ p ∈ pending, c ≤ p.ts) →
      ∀ x ∈ (dequeueLoop handler fuel pending).1, c ≤ x.ts := by
  intro fuel
  induction fuel with
  | zero =>
    intro pending c _ x hx
    simp [dequeueLoop] at hx
  | succ f ih =>
    intro pending c hp x hx
    simp only [dequeueLoop] at hx
    cases hs : sortEvents pending with
    | nil => rw [hs] at hx; simp at hx
    | cons h rest =>
      rw [hs] at hx
      simp only [List.mem_cons] at hx
      have hhead : c ≤ h.ts := hp h (mem_sortEvents.mp (hs ▸ List.mem_cons_self h rest))
      rcases hx with rfl | hx2
      · exact hhead
      · refine ih (rest ++ handler h) c ?_ x hx2
        intro p hpmem
        rcases List.mem_append.mp hpmem with hmem | hmem
        · exact hp p (mem_sortEvents.mp (hs ▸ List.mem_cons_of_mem h hmem))
        · exact le_trans hhead (hh h p hmem)

/-- C10. Within one drain, the logical clock (set to each popped event's
timestamp) is non-decreasing across successively dispatched events, provided
every event enqueued by a handler carries a timestamp at least the clock value
at which the handler ran (delivery events are stamped clock + delay with
delay at least 0, function events at clock + a positive interval). -/

theorem eventQueue_clock_monotone (handler : SimEvent → List SimEvent)
    (hh : ∀ e e', e' ∈ handler e → e.ts ≤ e'.ts) :
    ∀ (fuel : Nat) (pending : List SimEvent),
      List.Sorted (fun p q => p.ts ≤ q.ts) (dequeueLoop handler fuel pending).1 := by
  intro fuel
  induction fuel with
  | zero => intro pending; simp [dequeueLoop]
  | succ f ih =>
    intro pending
    simp only [dequeueLoop]
    cases hs : sortEvents pending with
    | nil => simp
    | cons h rest =>
      simp only
      rw [List.sorted_cons]
      refine ⟨?_, ih (rest ++ handler h)⟩
      intro b hb
      refine dequeueLoop_lower_bound handler hh f (rest ++ handler h) h.ts ?_ b hb
      intro p hp
      rcases List.mem_append.mp hp with hmem | hmem
      · have hsort := sorted_sortEvents pending
        rw [hs, List.sorted_cons] at hsort
        exact hsort.1 p hmem
      · exact hh h p hmem

/-- Witness for C10: with a handler that enqueues nothing, draining the queue
[5, 3] yields a non-decreasing dispatch timestamp sequence. -/

theorem eventQueue_clock_monotone_witness :
    List.Sorted (fun p q => p.ts ≤ q.ts)
      (dequeueLoop (fun _ => []) 2 [⟨5, 0⟩, ⟨3, 1⟩]).1 :=
  eventQueue_clock_monotone (fun _ => []) (by intro e e' h; simp at h) 2 _

/-- A block (source: `Block` in nodeMethods.js): content id (a random color string,
modelled as `Nat`), pointer to the previous block's id (`none` models `undefined`,
the base-block case), and the trust score. The ephemeral `localId` plays no role in
`tidy`/`add`/`trimBase`/`has` and is omitted. -/

theorem fireable_iff (bs : List BlockChain) (i j : Nat) :
    fireable bs i j = true ↔
      i < j ∧ ∃ bi bj x y, bs[i]? = some bi ∧ bs[j]? = some bj ∧
        bi.blocks.head? = some x ∧ bj.blocks.head? = some y ∧ x.id = y.id := by
  unfold fireable
  rcases hgi : bs[i]? with _ | bi
  · simp [hgi]
  · rcases hgj : bs[j]? with _ | bj
    · simp [hgi, hgj]
    · rcases hbi : bi.blocks.head? with _ | x
      · simp [hgi, hgj, hbi]
      · rcases hbj : bj.blocks.head? with _ | y
        · simp [hgi, hgj, hbi, hbj]
        · simp [hgi, hgj, hbi, hbj, Nat.beq_eq_true_eq, and_assoc]

theorem getElem?_set_ne {α : Type} (l : List α) (e : α) :
    ∀ (i j : Nat), i ≠ j → (l.set i e)[j]? = l[j]? := by
  induction l with
  | nil => intro i j _; simp
  | cons x xs ih =>
    intro i j hne
    cases i with
    | zero =>
      cases j with
      | zero => exact absurd rfl hne
      | succ j' => simp [List.set]
    | succ i' =>
      cases j with
      | zero => simp [List.set]
      | succ j' =>
        simp only [List.set, List.getElem?_cons_succ]
        exact ih i' j' (fun h => hne (by rw [h]))

theorem countP_set_succ {α : Type} (p : α → Bool) :
    ∀ (l : List α) (k : Nat) (c e : α), l[k]? = some c → p c = true → p e = false →
      (l.set k e).countP p + 1 = l.countP p := by
  intro l
  induction l with
  | nil => intro k c e h; simp at h
  | cons x xs ih =>
    intro k c e hget hc he
    cases k with
    | zero =>
      simp only [List.getElem?_cons_zero, Option.some.injEq] at hget
      subst hget
      simp [List.set, List.countP_cons, hc, he]
    | succ k' =>
      simp only [List.getElem?_cons_succ] at hget
      simp only [List.set, List.countP_cons]
      have := ih k' c e hget hc he
      omega

theorem nonemptyCount_applyFire {bs : List BlockChain} {i j : Nat}
    (h : fireable bs i j = true) :
    nonemptyCount (applyFire bs i j) < nonemptyCount bs := by
  rw [fireable_iff] at h
  obtain ⟨hij, bi, bj, x, y, hgi, hgj, hbi, hbj, _⟩ := h
  have hne : i ≠ j := Nat.ne_of_lt hij
  unfold nonemptyCount applyFire
  rw [List.countP_append]
  have hempty : (fun c => !(BlockChain.blocks c).isEmpty) (BlockChain.mk [] []) = false := by
    simp [BlockChain.blocks]
  have hbit : (fun c => !(BlockChain.blocks c).isEmpty) bi = true := by
    rcases hb : bi.blocks with _ | ⟨z, zs⟩
    · rw [hb] at hbi; simp at hbi
    · simp [hb]
  have hbjt : (fun c => !(BlockChain.blocks c).isEmpty) bj = true := by
    rcases hb : bj.blocks with _ | ⟨z, zs⟩
    · rw [hb] at hbj; simp at hbj
    · simp [hb]
  have h1 := countP_set_succ (fun c => !(BlockChain.blocks c).isEmpty) bs i bi
    (.mk [] []) hgi hbit hempty
  have hgj2 : (bs.set i (.mk [] []))[j]? = some bj := by
    rw [getElem?_set_ne bs _ i j hne]; exact hgj
  have h2 := countP_set_succ (fun c => !(BlockChain.blocks c).isEmpty)
    (bs.set i (.mk [] [])) j bj (.mk [] []) hgj2 hbjt hempty
  have h3 : List.countP (fun c => !(BlockChain.blocks c).isEmpty) [BlockChain.mk [] []] = 0 := by
    simp [List.countP_cons, hempty]
  omega

theorem findFirePair_fireable {bs : List BlockChain} {i j : Nat}
    (h : findFirePair bs = some (i, j)) : fireable bs i j = true := by
  unfold findFirePair at h
  have h2 := List.find?_some h
  simpa using h2

/-- Fuel irrelevance for the fire loop: any fuel above the branch count gives
the same result, so `combineBranchesLoop` computes the loop's true fixed point. -/
theorem combineBranchesLoopGo_exact :
    ∀ (f1 f2 : Nat) (bs : List BlockChain), nonemptyCount bs < f1 → nonemptyCount bs < f2 →
      combineBranchesLoopGo f1 bs = combineBranchesLoopGo f2 bs := by
  intro f1
  induction f1 with
  | zero => intro f2 bs h1; omega
  | succ g ih =>
    intro f2 bs h1 h2
    cases f2 with
    | zero => omega
    | succ h =>
      simp only [combineBranchesLoopGo]
      cases hf : findFirePair bs with
      | none => rfl
      | some p =>
        obtain ⟨i, j⟩ := p
        simp only
        have hdec := nonemptyCount_applyFire (findFirePair_fireable hf)
        rw [ih h (applyFire bs i j) (by omega) (by omega)]

theorem mem_combineBranchesLoopGo :
    ∀ (f : Nat) (bs : List BlockChain), ∀ b ∈ (combineBranchesLoopGo f bs).1,
      b ∈ bs ∨ b = .mk [] [] := by
  intro f
  induction f with
  | zero => intro bs b hb; exact Or.inl hb
  | succ g ih =>
    intro bs b hb
    simp only [combineBranchesLoopGo] at hb
    cases hf : findFirePair bs with
    | none => rw [hf] at hb; exact Or.inl hb
    | some p =>
      obtain ⟨i, j⟩ := p
      rw [hf] at hb
      simp only at hb
      rcases ih (applyFire bs i j) b hb with hmem | hemp
      · unfold applyFire at hmem
        rcases List.mem_append.mp hmem with hmem2 | hmem2
        · rcases List.mem_or_eq_of_mem_set hmem2 with hmem3 | hemp2
          · rcases List.mem_or_eq_of_mem_set hmem3 with hmem4 | hemp3
            · exact Or.inl hmem4
            · exact Or.inr hemp3
          · exact Or.inr hemp2
        · simp at hmem2
          exact Or.inr hmem2
      · exact Or.inr hemp

theorem chainDepth_le_of_mem {b : BlockChain} :
    ∀ {bs : List BlockChain}, b ∈ bs → chainDepth b ≤ chainDepthList bs := by
  intro bs
  induction bs with
  | nil => intro h; simp at h
  | cons x xs ih =>
    intro h
    rcases List.mem_cons.mp h with rfl | h2
    · simp [chainDepthList, Nat.le_max_left]
    · simp only [chainDepthList]
      exact le_trans (ih h2) (Nat.le_max_right _ _)

theorem chainDepthList_pos {bs : List BlockChain} (h : bs ≠ []) : 1 ≤ chainDepthList bs := by
  cases bs with
  | nil => exact absurd rfl h
  | cons x xs =>
    simp only [chainDepthList]
    have : 1 ≤ chainDepth x := by
      cases x with
      | mk a b => simp [chainDepth]
    omega

/-- Fuel irrelevance for `combineBranchesGo`: any fuel at least the tree depth
gives the same result, so `combineBranches` computes the source recursion. -/

theorem combineBranchesGo_exact :
    ∀ (f1 f2 : Nat) (t : BlockChain), chainDepth t ≤ f1 → chainDepth t ≤ f2 →
      combineBranchesGo f1 t = combineBranchesGo f2 t := by
  intro f1
  induction f1 with
  | zero =>
    intro f2 t h1
    cases t with
    | mk bs brs => simp [chainDepth] at h1
  | succ g ih =>
    intro f2 t h1 h2
    cases t with
    | mk bs brs =>
      cases f2 with
      | zero => simp [chainDepth] at h2
      | succ h =>
        simp only [combineBranchesGo]
        have hmap : (combineBranchesLoop brs).1.map (combineBranchesGo g) =
            (combineBranchesLoop brs).1.map (combineBranchesGo h) := by
          apply List.map_congr_left
          intro b hb
          have hdepth1 : chainDepthList brs ≤ g := by
            simp only [chainDepth] at h1; omega
          have hdepth2 : chainDepthList brs ≤ h := by
            simp only [chainDepth] at h2; omega
          have hbrs_ne : brs ≠ [] := by
            intro hcon
            subst hcon
            simp [combineBranchesLoop, combineBranchesLoopGo, findFirePair,
              pairsInOrder, nonemptyCount] at hb
          have hpos : 1 ≤ chainDepthList brs := chainDepthList_pos hbrs_ne
          rcases mem_combineBranchesLoopGo _ brs b hb with hmem | hemp
          · exact ih h b (le_trans (chainDepth_le_of_mem hmem) hdepth1)
              (le_trans (chainDepth_le_of_mem hmem) hdepth2)
          · subst hemp
            have : chainDepth (BlockChain.mk [] []) = 1 := by simp [chainDepth, chainDepthList]
            exact ih h _ (by omega) (by omega)
        rw [hmap]

theorem tidy_drops_distinct_occurrences :
    tidy (.mk [] [.mk [⟨0, none, 1⟩] [], .mk [⟨0, none, 1⟩] []]) = .ok (.mk [] []) ∧
    (distinctKeys (.mk [] [.mk [⟨0, none, 1⟩] [], .mk [⟨0, none, 1⟩] []])).length = 1 ∧
    (distinctKeys (.mk [] [])).length = 0 :=
  ⟨rfl, rfl, rfl⟩

/-- C3. Counter-evidence for "membership holds immediately after `add` and after
any canonicalization pass": adding block 0 to the empty ledger succeeds and
membership holds, but adding the same block again makes `add`'s internal `tidy`
destroy the whole tree (the `combineBranches` slip), after which `has` is false
— contradicting the repo's own `add`/`has` tests and the spec's containment
property. -/

theorem add_then_add_same_loses_membership :
    addBlock (.mk [] []) ⟨0, none, 1⟩ = .ok (.mk [⟨0, none, 1⟩] []) ∧
    hasAmount (.mk [⟨0, none, 1⟩] []) ⟨0, none, 1⟩ 1 = true ∧
    addBlock (.mk [⟨0, none, 1⟩] []) ⟨0, none, 1⟩ = .ok (.mk [] []) ∧
    hasAmount (.mk [] []) ⟨0, none, 1⟩ 1 = false :=
  ⟨rfl, rfl, rfl, rfl⟩

theorem applyRule_snd_false {r : BlockChain → Option BlockChain} {t : BlockChain}
    (h : (applyRule r t).2 = false) : applyRule r t = (t, false) := by
  unfold applyRule at *
  cases hr : r t with
  | none => rfl
  | some t2 => rw [hr] at h; simp at h

theorem combineBranchesLoop_snd_false {bs : List BlockChain}
    (h : (combineBranchesLoop bs).2 = false) : combineBranchesLoop bs = (bs, false) := by
  unfold combineBranchesLoop combineBranchesLoopGo at *
  cases hf : findFirePair bs with
  | none => simp [hf]
  | some p => obtain ⟨i, j⟩ := p; rw [hf] at h; simp at h

theorem combineBranchesGo_no_effect :
    ∀ (f : Nat) (t t' : BlockChain), combineBranchesGo f t = (t', false) → t' = t := by
  intro f
  induction f with
  | zero =>
    intro t t' h
    simp only [combineBranchesGo] at h
    exact (Prod.mk.injEq _ _ _ _ ▸ h).1.symm
  | succ g ih =>
    intro t t' h
    cases t with
    | mk bs brs =>
      simp only [combineBranchesGo] at h
      have hsnd := congrArg Prod.snd h
      have hfst := congrArg Prod.fst h
      simp only [Bool.or_eq_false_iff] at hsnd
      obtain ⟨hloop, hany⟩ := hsnd
      have hloopeq := combineBranchesLoop_snd_false hloop
      rw [hloopeq] at hany hfst
      simp only [List.any_eq_false] at hany
      have hmapid : (brs.map (combineBranchesGo g)).map Prod.fst = brs := by
        rw [List.map_map]
        have : ∀ b ∈ brs, ((Prod.fst ∘ combineBranchesGo g) b) = b := by
          intro b hb
          have hbf : (combineBranchesGo g b).2 = false := by
            have := hany (combineBranchesGo g b) (List.mem_map_of_mem _ hb)
            simpa using this
          have : combineBranchesGo g b = ((combineBranchesGo g b).1, false) := by
            cases hres : combineBranchesGo g b with
            | mk a bool => rw [hres] at hbf; simp at hbf; simp [hbf]
          exact ih b _ this
        calc brs.map (Prod.fst ∘ combineBranchesGo g) = brs.map id := List.map_congr_left this
          _ = brs := List.map_id _
      rw [hmapid] at hfst
      exact hfst.symm

theorem removeUnbasedStep_cases (acc : BlockChain × Bool) (path : List Nat) :
    removeUnbasedStep acc path = acc ∨ (removeUnbasedStep acc path).2 = true := by
  unfold removeUnbasedStep
  split
  · exact Or.inl rfl
  · split
    · exact Or.inl rfl
    · split
      · exact Or.inl rfl
      · split
        · exact Or.inl rfl
        · exact Or.inr rfl

theorem foldl_removeUnbasedStep_true :
    ∀ (paths : List (List Nat)) (acc : BlockChain × Bool), acc.2 = true →
      (paths.foldl removeUnbasedStep acc).2 = true := by
  intro paths
  induction paths with
  | nil => intro acc h; exact h
  | cons p ps ih =>
    intro acc h
    simp only [List.foldl_cons]
    rcases removeUnbasedStep_cases acc p with heq | htrue
    · rw [heq]; exact ih acc h
    · exact ih _ htrue

theorem foldl_removeUnbasedStep_no_effect :
    ∀ (paths : List (List Nat)) (acc : BlockChain × Bool),
      (paths.foldl removeUnbasedStep acc).2 = false →
      paths.foldl removeUnbasedStep acc = acc := by
  intro paths
  induction paths with
  | nil => intro acc _; rfl
  | cons p ps ih =>
    intro acc h
    simp only [List.foldl_cons] at h ⊢
    rcases removeUnbasedStep_cases acc p with heq | htrue
    · rw [heq] at h ⊢; exact ih acc h
    · have := foldl_removeUnbasedStep_true ps _ htrue
      rw [this] at h
      simp at h

theorem removeUnbasedBranches_no_effect {t t' : BlockChain}
    (h : removeUnbasedBranches t = (t', false)) : t' = t := by
  unfold removeUnbasedBranches at h
  cases t with
  | mk bs brs =>
    cases bs with
    | cons x xs =>
      simp only at h
      exact (congrArg Prod.fst h).symm
    | nil =>
      simp only at h
      have hsnd : ((getStartBranchPaths [] (.mk [] brs)).foldl removeUnbasedStep
          (BlockChain.mk [] brs, false)).2 = false := by rw [h]
      have := foldl_removeUnbasedStep_no_effect _ _ hsnd
      rw [this] at h
      exact (congrArg Prod.fst h).symm

theorem tidyStep_no_effect {t t' : BlockChain} (h : tidyStep t = (t', false)) : t' = t := by
  unfold tidyStep at h
  have hsnd := congrArg Prod.snd h
  have hfst := congrArg Prod.fst h
  simp only [Bool.or_eq_false_iff] at hsnd
  obtain ⟨h1, h2, h3, h4, h5⟩ := hsnd
  have e1 := applyRule_snd_false h1
  rw [e1] at h2 h3 h4 h5 hfst
  simp only at h2 h3 h4 h5 hfst
  have e2 := applyRule_snd_false h2
  rw [e2] at h3 h4 h5 hfst
  simp only at h3 h4 h5 hfst
  have e3 := applyRule_snd_false h3
  rw [e3] at h4 h5 hfst
  simp only at h4 h5 hfst
  have e4 : removeUnbasedBranches t = ((removeUnbasedBranches t).1, false) := by
    cases hres : removeUnbasedBranches t with
    | mk a bool => rw [hres] at h4; simp only at h4; simp [h4]
  have e4' : (removeUnbasedBranches t).1 = t := removeUnbasedBranches_no_effect e4
  rw [e4'] at h5 hfst
  have e5 : combineBranches t = ((combineBranches t).1, false) := by
    cases hres : combineBranches t with
    | mk a bool => rw [hres] at h5; simp only at h5; simp [h5]
  have e5' : (combineBranches t).1 = t := combineBranchesGo_no_effect _ _ _ e5
  rw [e5'] at hfst
  exact hfst.symm

/-- A successful `tidy` run ends at a fixed point: the returned tree makes the
next pass fire no rule. -/

theorem tidyGo_ok_fixed :
    ∀ (fuel : Nat) (t t' : BlockChain), tidyGo fuel t = .ok t' →
      tidyStep t' = (t', false) := by
  intro fuel
  induction fuel with
  | zero => intro t t' h; simp [tidyGo] at h
  | succ f ih =>
    intro t t' h
    simp only [tidyGo] at h
    cases hstep : tidyStep t with
    | mk t1 e =>
      rw [hstep] at h
      cases e with
      | true => simp only [if_pos] at h; exact ih t1 t' h
      | false =>
        simp only [if_neg] at h
        cases h
        have := tidyStep_no_effect hstep
        subst this
        exact hstep

/-- C7. `tidy` always terminates: the fixed-point loop is bounded by the
200-rerun ceiling; it either returns normally with a tree on which no rule
fires, or it raises the infinite-loop error (which nothing inside `tidy`
catches or retries). -/

theorem tidy_terminates_or_ceiling (t : BlockChain) :
    (∃ t2, tidy t = .ok t2 ∧ tidyStep t2 = (t2, false)) ∨
      tidy t = .error "Infinite loop detected when tidying a blockchain" := by
  have hgen : ∀ (fuel : Nat) (u : BlockChain),
      (∃ t2, tidyGo fuel u = .ok t2) ∨
        tidyGo fuel u = .error "Infinite loop detected when tidying a blockchain" := by
    intro fuel
    induction fuel with
    | zero => intro u; exact Or.inr rfl
    | succ f ih =>
      intro u
      simp only [tidyGo]
      cases hstep : tidyStep u with
      | mk t1 e =>
        cases e with
        | true => simpa using ih t1
        | false => exact Or.inl ⟨t1, by simp⟩
  rcases hgen 200 t with ⟨t2, h2⟩ | herr
  · exact Or.inl ⟨t2, h2, tidyGo_ok_fixed 200 t t2 h2⟩
  · exact Or.inr herr

/-- C5. Canonicalization is idempotent: when `tidy` returns a tree, running
`tidy` again on that tree finds no rule to fire and returns it unchanged. -/

theorem tidy_idempotent (t t' : BlockChain) (h : tidy t = .ok t') :
    tidy t' = .ok t' := by
  have hfix := tidyGo_ok_fixed 200 t t' h
  have hunfold : tidy t' =
      if (tidyStep t').2 then tidyGo 199 (tidyStep t').1 else .ok (tidyStep t').1 := rfl
  rw [hunfold, hfix]
  simp

/-- Witness for C5: tidying a tree with one redundant branching point yields a
plain one-block spine, and tidying that result returns it unchanged. -/

theorem tidy_idempotent_witness :
    tidy (.mk [⟨0, none, 1⟩] []) = .ok (.mk [⟨0, none, 1⟩] []) :=
  tidy_idempotent (.mk [] [.mk [⟨0, none, 1⟩] []]) (.mk [⟨0, none, 1⟩] []) rfl

/-- One step of the per-context seed (source: `random` in nodeMethods.js,
`s[c] = s[c] + 1831565813 | 0`, modelled on the unsigned 32-bit representative). -/

theorem runRandom_filter (c : String) :
    ∀ (calls : List (String × ℚ)) (seedsMap : String → Nat),
      (runRandom seedsMap calls).filter (fun p => p.1 == c) =
        playContext (seedsMap c) (calls.filter fun p => p.1 == c) := by
  intro calls
  induction calls with
  | nil => intro seedsMap; rfl
  | cons hd rest ih =>
    intro seedsMap
    obtain ⟨c', m⟩ := hd
    by_cases hc : c' = c
    · subst hc
      simp only [runRandom, randomCall, List.filter_cons, beq_self_eq_true, if_pos]
      simp only [decide_True, playContext]
      rw [ih]
      simp
    · have hbeq : (c' == c) = false := beq_eq_false_iff_ne.mpr hc
      simp only [runRandom, randomCall, List.filter_cons, hbeq]
      simp only [Bool.false_eq_true, if_neg, reduceIte]
      rw [ih]
      have hne : c ≠ c' := fun h => hc h.symm
      simp [hne]

/-- C9. The seeded generator is deterministic and per-context isolated: two runs
making the same sequence of `random(context, max)` calls for one context produce
identical value streams for that context, regardless of how many calls the runs
make under other context names. -/

theorem random_context_isolated (seed : Nat) (calls1 calls2 : List (String × ℚ))
    (c : String)
    (h : calls1.filter (fun p => p.1 == c) = calls2.filter (fun p => p.1 == c)) :
    (runRandom (fun _ => seed) calls1).filter (fun p => p.1 == c) =
      (runRandom (fun _ => seed) calls2).filter (fun p => p.1 == c) := by
  rw [runRandom_filter, runRandom_filter, h]

/-- Witness for C9: interleaving a call under context "b" does not perturb the
stream of context "a". -/

theorem random_context_isolated_witness :
    (runRandom (fun _ => 1) [("a", 1), ("b", 1), ("a", 1)]).filter
        (fun p => p.1 == "a") =
      (runRandom (fun _ => 1) [("a", 1), ("a", 1)]).filter (fun p => p.1 == "a") :=
  random_context_isolated 1 [("a", 1), ("b", 1), ("a", 1)] [("a", 1), ("a", 1)] "a"
    (by decide)

theorem forall2_le_refl (l : List ℚ) : List.Forall₂ (· ≤ ·) l l := by
  induction l with
  | nil => exact List.Forall₂.nil
  | cons x xs ih => exact List.Forall₂.cons (le_refl x) ih

theorem bumpTrustList_le :
    ∀ (bs : List Block) (idx : Nat) (v : ℚ),
      List.Forall₂ (· ≤ ·) (bs.map Block.trust) ((bumpTrustList idx v bs).map Block.trust) := by
  intro bs
  induction bs with
  | nil => intro idx v; simp [bumpTrustList]
  | cons b rest ih =>
    intro idx v
    cases idx with
    | zero =>
      simp only [bumpTrustList, List.map_cons]
      exact List.Forall₂.cons (le_max_left _ _) (forall2_le_refl _)
    | succ i =>
      simp only [bumpTrustList, List.map_cons]
      exact List.Forall₂.cons (le_refl _) (ih i v)

theorem trustsOf_mk (bs : List Block) (brs : List BlockChain) :
    trustsOf (.mk bs brs) = bs.map Block.trust ++ (allBlocksList brs).map Block.trust := by
  simp [trustsOf, allBlocks]

theorem mapIdx_allBlocks_trusts_le :
    ∀ (brs : List BlockChain) (g : Nat → BlockChain → BlockChain),
      (∀ j b, List.Forall₂ (· ≤ ·) (trustsOf b) (trustsOf (g j b))) →
      List.Forall₂ (· ≤ ·) ((allBlocksList brs).map Block.trust)
        ((allBlocksList (brs.mapIdx g)).map Block.trust) := by
  intro brs
  induction brs with
  | nil => intro g _; simp [allBlocksList]
  | cons b rest ih =>
    intro g hg
    rw [List.mapIdx_cons]
    simp only [allBlocksList, List.map_append]
    exact List.rel_append (hg 0 b) (ih (fun i => g (i + 1)) fun j b2 => hg (j + 1) b2)

theorem updateAt_trusts_le
    (f : BlockChain → BlockChain)
    (hf : ∀ c, List.Forall₂ (· ≤ ·) (trustsOf c) (trustsOf (f c))) :
    ∀ (path : List Nat) (t : BlockChain),
      List.Forall₂ (· ≤ ·) (trustsOf t) (trustsOf (updateAt t path f)) := by
  intro path
  induction path with
  | nil =>
    intro t
    cases t with
    | mk bs brs => exact hf _
  | cons i p ih =>
    intro t
    cases t with
    | mk bs brs =>
      simp only [updateAt, trustsOf_mk]
      refine List.rel_append (forall2_le_refl _) ?_
      refine mapIdx_allBlocks_trusts_le brs _ ?_
      intro j b
      by_cases hj : j = i
      · simp only [hj, if_pos rfl]
        exact ih b
      · simp only [if_neg hj]
        exact forall2_le_refl _

theorem setTrustAt_trusts_le (t : BlockChain) (path : List Nat) (idx : Nat) (v : ℚ) :
    List.Forall₂ (· ≤ ·) (trustsOf t) (trustsOf (setTrustAt t path idx v)) := by
  unfold setTrustAt
  refine updateAt_trusts_le _ ?_ path t
  intro c
  cases c with
  | mk bs brs =>
    simp only [trustsOf_mk, BlockChain.blocks, BlockChain.branches]
    exact List.rel_append (bumpTrustList_le bs idx v) (forall2_le_refl _)

theorem forall2_le_trans {a b c : List ℚ}
    (h1 : List.Forall₂ (· ≤ ·) a b) (h2 : List.Forall₂ (· ≤ ·) b c) :
    List.Forall₂ (· ≤ ·) a c := by
  induction h1 generalizing c with
  | nil => cases h2; exact List.Forall₂.nil
  | cons hxy hrest ih =>
    cases h2 with
    | cons hyz hrest2 => exact List.Forall₂.cons (le_trans hxy hyz) (ih hrest2)

theorem setRecursiveBlockTrust_trusts_le :
    ∀ (fuel : Nat) (t : BlockChain) (bid : Option Nat) (v : ℚ),
      List.Forall₂ (· ≤ ·) (trustsOf t) (trustsOf (setRecursiveBlockTrust fuel t bid v)) := by
  intro fuel
  induction fuel with
  | zero => intro t bid v; cases bid <;> exact forall2_le_refl _
  | succ f ih =>
    intro t bid v
    cases bid with
    | none => exact forall2_le_refl _
    | some b =>
      simp only [setRecursiveBlockTrust]
      have hfold : ∀ (es : List BlockEntry) (acc : BlockChain),
          List.Forall₂ (· ≤ ·) (trustsOf acc)
            (trustsOf (es.foldl
              (fun acc2 e => setRecursiveBlockTrust f
                (setTrustAt acc2 e.path e.idx (min 1 (v + 1 / 10))) e.block.previousId
                (min 1 (v + 1 / 10))) acc)) := by
        intro es
        induction es with
        | nil => intro acc; exact forall2_le_refl _
        | cons e rest ihe =>
          intro acc
          simp only [List.foldl_cons]
          refine forall2_le_trans (forall2_le_trans (setTrustAt_trusts_le acc e.path e.idx _)
            (ih _ _ _)) (ihe _)
      exact hfold _ t

mutual

theorem allBlocks_resetTrusts :
    ∀ (u : BlockChain), allBlocks (resetTrusts u) =
      (allBlocks u).map fun b => { b with trust := 0 }
  | .mk bs brs => by
    simp only [resetTrusts, allBlocks, List.map_append]
    rw [allBlocksList_resetTrustsList brs]

theorem allBlocksList_resetTrustsList :
    ∀ (l : List BlockChain), allBlocksList (resetTrustsList l) =
      (allBlocksList l).map fun b => { b with trust := 0 }
  | [] => rfl
  | br :: rest => by
    simp only [resetTrustsList, allBlocksList, List.map_append]
    rw [allBlocks_resetTrusts br, allBlocksList_resetTrustsList rest]

end

/-- C8 amended. The trust-update pass first resets every block's trust to 0;
after that reset, the propagation phase never decreases any block's trust
(every write stores the max of the current and propagated values). Relative to
the start of the pass a trust value can decrease (see the counterexample). -/
theorem updateBlockTrustLevels_monotone_after_reset (fuel : Nat) (t : BlockChain) :
    (∀ x ∈ trustsOf (resetTrusts t), x = 0) ∧
    List.Forall₂ (· ≤ ·) (trustsOf (resetTrusts t))
      (trustsOf (updateBlockTrustLevels fuel t)) := by
  constructor
  · intro x hx
    unfold trustsOf at hx
    rw [allBlocks_resetTrusts] at hx
    simp only [List.map_map, List.mem_map] at hx
    obtain ⟨b, _, hb⟩ := hx
    simpa using hb.symm
  · unfold updateBlockTrustLevels
    have hfold : ∀ (es : List Block) (acc : BlockChain),
        List.Forall₂ (· ≤ ·) (trustsOf acc)
          (trustsOf (es.foldl
            (fun acc2 e => setRecursiveBlockTrust fuel acc2 e.previousId 0) acc)) := by
      intro es
      induction es with
      | nil => intro acc; exact forall2_le_refl _
      | cons e rest ihe =>
        intro acc
        simp only [List.foldl_cons]
        exact forall2_le_trans (setRecursiveBlockTrust_trusts_le fuel acc e.previousId 0)
          (ihe _)
    exact hfold _ _

/-- C8 counterexample. A single-node ledger holding one block with the default
trust 1: the trust-update pass resets it to 0 and the propagation (starting at
the end's previous-id, which is absent) never raises it, so the block's trust
strictly decreases across the pass, contradicting the claim. -/

theorem updateBlockTrustLevels_decreases_tip_trust :
    updateBlockTrustLevels 2 (.mk [⟨0, none, 1⟩] []) = .mk [⟨0, none, 0⟩] [] ∧
      ((0 : ℚ) < 1) :=
  ⟨rfl, by norm_num⟩

mutual

theorem allBlocks_writeTrust (qid qprev : Option Nat) (v : ℚ) :
    ∀ (u : BlockChain), allBlocks (writeTrust qid qprev v u) =
      (allBlocks u).map fun b =>
        if blockMatches qid qprev b then { b with trust := v } else b
  | .mk bs brs => by
    simp only [writeTrust, allBlocks, List.map_append]
    rw [allBlocksList_writeTrustList qid qprev v brs]

theorem allBlocksList_writeTrustList (qid qprev : Option Nat) (v : ℚ) :
    ∀ (l : List BlockChain), allBlocksList (writeTrustList qid qprev v l) =
      (allBlocksList l).map fun b =>
        if blockMatches qid qprev b then { b with trust := v } else b
  | [] => rfl
  | br :: rest => by
    simp only [writeTrustList, allBlocksList, List.map_append]
    rw [allBlocks_writeTrust qid qprev v br, allBlocksList_writeTrustList qid qprev v rest]

end

theorem allBlocks_writeAverages :
    ∀ (m : List ((Nat × Option Nat) × List ℚ)) (t : BlockChain),
      allBlocks (writeAverages m t) = (allBlocks t).map (applyWrites m) := by
  intro m
  induction m with
  | nil =>
    intro t
    simp only [writeAverages, List.foldl_nil]
    have : applyWrites [] = fun b => b := rfl
    rw [this, List.map_id']
  | cons e rest ih =>
    intro t
    simp only [writeAverages, List.foldl_cons] at ih ⊢
    rw [ih, allBlocks_writeTrust, List.map_map]
    rfl

theorem blockMatches_id {x : Nat} {qprev : Option Nat} {b : Block}
    (h : blockMatches (some x) qprev b = true) : b.id = x := by
  unfold blockMatches at h
  rw [Bool.and_eq_true] at h
  have h1 : (b.id == x) = true := h.1
  simpa using h1

theorem blockMatches_trust_irrelevant (qid qprev : Option Nat) (b : Block) (v : ℚ) :
    blockMatches qid qprev { b with trust := v } = blockMatches qid qprev b := rfl

theorem applyWrites_stable :
    ∀ (m : List ((Nat × Option Nat) × List ℚ)) (b : Block),
      (∀ e ∈ m, blockMatches (some e.1.1) e.1.2 b = true → average e.2 = b.trust) →
      applyWrites m b = b := by
  intro m
  induction m with
  | nil => intro b _; rfl
  | cons hd rest ih =>
    intro b hstab
    simp only [applyWrites, List.foldl_cons]
    by_cases hm : blockMatches (some hd.1.1) hd.1.2 b = true
    · have havg : average hd.2 = b.trust := hstab hd (List.mem_cons_self _ _) hm
      have hb1 : ({ b with trust := average hd.2 } : Block) = b := by
        cases b; simp [havg]
      rw [if_pos hm, hb1]
      exact ih b fun e he hme => hstab e (List.mem_cons_of_mem _ he) hme
    · rw [if_neg hm]
      exact ih b fun e he hme => hstab e (List.mem_cons_of_mem _ he) hme

theorem applyWrites_match :
    ∀ (m : List ((Nat × Option Nat) × List ℚ)) (e : (Nat × Option Nat) × List ℚ),
      e ∈ m →
      (∀ e1 ∈ m, ∀ e2 ∈ m, e1.1.1 = e2.1.1 → e1 = e2) →
      ∀ b : Block, blockMatches (some e.1.1) e.1.2 b = true →
      (applyWrites m b).trust = average e.2 := by
  intro m
  induction m with
  | nil => intro e he; simp at he
  | cons hd rest ih =>
    intro e he hids b hb
    simp only [applyWrites, List.foldl_cons]
    rcases List.mem_cons.mp he with rfl | herest
    · rw [if_pos hb]
      have hstab : applyWrites rest ({ b with trust := average e.2 } : Block) =
          { b with trust := average e.2 } := by
        refine applyWrites_stable rest _ ?_
        intro e2 he2 hm2
        have hid2 : ({ b with trust := average e.2 } : Block).id = e2.1.1 :=
          blockMatches_id hm2
        have hid1 : b.id = e.1.1 := blockMatches_id hb
        have : e2.1.1 = e.1.1 := by
          have : b.id = e2.1.1 := hid2
          rw [hid1] at this
          exact this.symm
        have heq : e2 = e := hids e2 (List.mem_cons_of_mem _ he2) e
          (List.mem_cons_self _ _) this
        rw [heq]
      show (applyWrites rest ({ b with trust := average e.2 } : Block)).trust = average e.2
      rw [hstab]
    · by_cases hm : blockMatches (some hd.1.1) hd.1.2 b = true
      · have hid1 : b.id = hd.1.1 := blockMatches_id hm
        have hid2 : b.id = e.1.1 := blockMatches_id hb
        have heq : hd = e := hids hd (List.mem_cons_self _ _) e
          (List.mem_cons_of_mem _ herest) (by rw [← hid1, hid2])
        rw [if_pos hm, heq]
        refine ih e herest ?_ _ ?_
        · intro e1 he1 e2 he2 hi
          exact hids e1 (List.mem_cons_of_mem _ he1) e2 (List.mem_cons_of_mem _ he2) hi
        · rw [blockMatches_trust_irrelevant]
          exact hb
      · rw [if_neg hm]
        refine ih e herest ?_ b hb
        intro e1 he1 e2 he2 hi
        exact hids e1 (List.mem_cons_of_mem _ he1) e2 (List.mem_cons_of_mem _ he2) hi

/-- C4 counterexample. Two nodes hold the same block (id 0, no previous-id) with
trusts 0 and 1/2. The pass computes the average 1/4 but writes it only into the
temporary federated ledger; both nodes' own ledgers come out of the pass
unchanged (trusts still 0 and 1/2, not 1/4), refuting the claim that the
averaged value is written back into each node's own ledger. -/

theorem aggregation_no_write_back_to_nodes :
    handleBlockchainEvents [.mk [⟨0, none, 0⟩] [], .mk [⟨0, none, 1/2⟩] []] =
      .ok (.mk [] [], [.mk [⟨0, none, 0⟩] [], .mk [⟨0, none, 1/2⟩] []]) ∧
    average [0, 1/2] = 1/4 ∧ ¬((0 : ℚ) = 1/4) ∧ ¬((1/2 : ℚ) = 1/4) :=
  ⟨rfl, by norm_num [average], by norm_num, by norm_num⟩

/-- C4 amended. After each delivery event, the pass merges every node's ledger
into one temporary federated ledger and, for each distinct (id, previous-id)
occurrence, averages the trusts assigned by the nodes holding it — but the
averaged value is written into the matching occurrences of the temporary
federated ledger only, never back into the nodes' own ledgers: when the
federated spine has no fully-trusted prefix the pass returns every node ledger
unchanged (first conjunct); the write loop is pointwise on the federated
ledger's blocks (second conjunct), and when the map's keys carry pairwise
distinct content ids, each matching occurrence receives exactly its key's
average (third conjunct). -/

theorem aggregation_averages_federated_only :
    (∀ (nodes : List BlockChain) (g0 : BlockChain),
      buildFederated nodes = .ok g0 →
      countTrustedPre (writeAverages (collectTrustMap nodes) g0).blocks = 0 →
      handleBlockchainEvents nodes =
        .ok (writeAverages (collectTrustMap nodes) g0, nodes)) ∧
    (∀ (m : List ((Nat × Option Nat) × List ℚ)) (t : BlockChain),
      allBlocks (writeAverages m t) = (allBlocks t).map (applyWrites m)) ∧
    (∀ (m : List ((Nat × Option Nat) × List ℚ)) (e : (Nat × Option Nat) × List ℚ),
      e ∈ m → (∀ e1 ∈ m, ∀ e2 ∈ m, e1.1.1 = e2.1.1 → e1 = e2) →
      ∀ b : Block, blockMatches (some e.1.1) e.1.2 b = true →
      (applyWrites m b).trust = average e.2) := by
  refine ⟨?_, allBlocks_writeAverages, applyWrites_match⟩
  intro nodes g0 hfed hk
  unfold handleBlockchainEvents
  rw [hfed]
  simp [hk]

/-- Witness for C4 amended: on the two-node counterexample input the federated
build succeeds, no fully-trusted prefix exists, and the pass returns the node
ledgers unchanged. -/

theorem aggregation_averages_federated_only_witness :
    handleBlockchainEvents [.mk [⟨0, none, 0⟩] [], .mk [⟨0, none, 1/2⟩] []] =
      .ok (writeAverages
        (collectTrustMap [.mk [⟨0, none, 0⟩] [], .mk [⟨0, none, 1/2⟩] []]) (.mk [] []),
        [.mk [⟨0, none, 0⟩] [], .mk [⟨0, none, 1/2⟩] []]) :=
  aggregation_averages_federated_only.1
    [.mk [⟨0, none, 0⟩] [], .mk [⟨0, none, 1/2⟩] []] (.mk [] []) rfl rfl

/-- C6. Counter-evidence for "forcing root trust to 1 across all nodes makes
the aggregation pass trimBase every node's spine by the trusted-prefix length":
with two nodes each holding the spine [block0 (trust 1), block1 (trust 0)],
federating the ledgers destroys the shared prefix (the `combineBranches` slip
fires while the duplicate blocks are added), leaving the federated spine
[block1] with averaged trust 0 — so no fully-trusted prefix is found, `trimBase`
is never invoked, and both nodes keep their 2-block spines. The spec's trimming
scenario is the clear intent and never happens on shared ledgers. -/

theorem aggregation_trim_never_fires_on_shared_ledgers :
    handleBlockchainEvents
        [.mk [⟨0, none, 1⟩, ⟨1, some 0, 0⟩] [], .mk [⟨0, none, 1⟩, ⟨1, some 0, 0⟩] []] =
      .ok (.mk [⟨1, some 0, 0⟩] [],
        [.mk [⟨0, none, 1⟩, ⟨1, some 0, 0⟩] [], .mk [⟨0, none, 1⟩, ⟨1, some 0, 0⟩] []]) ∧
    ((BlockChain.mk [⟨0, none, 1⟩, ⟨1, some 0, 0⟩] []).blocks.length = 2) :=
  ⟨by with_unfolding_all rfl, rfl⟩
